import Mathlib

/-!
# ZakatWallet ledger core: shallow embedding and verification

This file embeds the ledger engine of the ZakatWallet repository
(`wallet_backend_go/internal/blockchain` together with the UTXO set,
block, wallet and API handler files) into Lean and settles a list of
claims about it.

Modelling conventions:

* Go byte slices (`[]byte`) are `List Nat`; a `nil` slice and an empty
  slice both have length zero in the source, so both are `[]`.
* Go `map[string]T` keyed by `hex.EncodeToString(id)` is modelled as an
  association list keyed by the raw id bytes: hex encoding is injective
  on byte strings, so the keying is equivalent.  Go map iteration order
  is unspecified; the association list fixes insertion order as one
  concrete, stable order (matching the spec's "implementation-defined
  but stable order").
* SHA-256 and gob serialization are abstracted as function parameters
  (`sha : List Nat → List Nat`, `txHash setId : Transaction → List Nat`):
  every theorem quantifies over them, and concrete witnesses instantiate
  them.  ECDSA over P-256 is likewise abstracted: `sigAt i msg` is the
  `(r, s)` pair returned by `ecdsa.Sign` for input `i` (one fixed draw of
  randomness), `pubXY` the public-key point, and
  `ver : Nat × Nat → List Nat → Nat × Nat → Bool` the `ecdsa.Verify`
  primitive.  `big.Int.Bytes()` (minimal big-endian, empty for zero) is
  `natToBytes`, and `big.Int.SetBytes` is `bytesToNat`.
* Go runtime panics (out-of-range slice indexing) are modelled as
  `none` / a dedicated `crash` constructor; HTTP handler errors carry
  the status code and message of the source.
-/

namespace ZakatWallet

/-! ## Byte-level helpers -/

/-- Big-endian interpretation of a byte string as a natural number;
this is `big.Int.SetBytes`. -/
def bytesToNat (bs : List Nat) : Nat :=
  bs.foldl (fun a b => a * 256 + b) 0

/-- Structural helper for `natToBytes`: the first argument is fuel
(any bound at least the value), keeping the recursion kernel-reducible. -/
def natToBytesAux : Nat → Nat → List Nat
  | _, 0 => []
  | 0, _ => []
  | fuel + 1, n => natToBytesAux fuel (n / 256) ++ [n % 256]

/-- Minimal big-endian encoding of a natural number; this is
`big.Int.Bytes()`, which returns an empty slice for zero and has no
leading zero bytes otherwise. -/
def natToBytes (n : Nat) : List Nat :=
  natToBytesAux n n

/-- Fixed-width big-endian encoding (`binary.Write` with `BigEndian`). -/
def natToBeBytes : Nat → Nat → List Nat
  | 0, _ => []
  | w + 1, v => natToBeBytes w (v / 256) ++ [v % 256]

/-- `IntToHex` from `pow.go`: the 8-byte big-endian encoding of an
`int64` (two's complement, i.e. the value modulo `2^64`). -/
def intToHex (n : Int) : List Nat :=
  natToBeBytes 8 (n % (2 : Int) ^ 64).toNat

/-- Value of one ASCII hex digit, as in `encoding/hex`. -/
def hexDigit (c : Nat) : Option Nat :=
  if 48 ≤ c ∧ c ≤ 57 then some (c - 48)
  else if 97 ≤ c ∧ c ≤ 102 then some (c - 87)
  else if 65 ≤ c ∧ c ≤ 70 then some (c - 55)
  else none

/-- `hex.DecodeString`: returns the bytes decoded before any error
together with a success flag (Go returns a partial result plus `err`). -/
def hexDecodeGo : List Nat → List Nat × Bool
  | [] => ([], true)
  | [_] => ([], false)
  | a :: b :: rest =>
    match hexDigit a, hexDigit b with
    | some x, some y =>
      let r := hexDecodeGo rest
      ((16 * x + y) :: r.1, r.2)
    | _, _ => ([], false)

/-- `hex.DecodeString` when the caller checks the error: `none` on any
malformed input. -/
def hexDecode (s : List Nat) : Option (List Nat) :=
  let r := hexDecodeGo s
  if r.2 then some r.1 else none

/-- ASCII character of one hex nibble (lower case, as `%x`). -/
def hexDigitChar (n : Nat) : Nat :=
  if n < 10 then 48 + n else 87 + n

/-- `hex.EncodeToString` / `fmt.Sprintf` with `%x` on a byte slice. -/
def hexEncode (bs : List Nat) : List Nat :=
  bs.foldr (fun b acc => hexDigitChar (b / 16) :: hexDigitChar (b % 16) :: acc) []

/-! ## Association lists standing in for Go maps

Keys are raw id byte strings (hex encoding of the key is injective, see
the module comment).  `alistInsert` overwrites in place and appends new
keys at the end, fixing insertion order as the iteration order. -/

abbrev Bytes := List Nat

def alistLookup {α : Type} : List (Bytes × α) → Bytes → Option α
  | [], _ => none
  | (k, v) :: rest, key => if k = key then some v else alistLookup rest key

/-- Go map read: missing keys yield the zero value `d`. -/
def alistGetD {α : Type} (m : List (Bytes × α)) (k : Bytes) (d : α) : α :=
  (alistLookup m k).getD d

def alistInsert {α : Type} : List (Bytes × α) → Bytes → α → List (Bytes × α)
  | [], k, v => [(k, v)]
  | (k', v') :: rest, k, v =>
    if k' = k then (k, v) :: rest else (k', v') :: alistInsert rest k v

def alistRemove {α : Type} : List (Bytes × α) → Bytes → List (Bytes × α)
  | [], _ => []
  | (k', v') :: rest, k => if k' = k then rest else (k', v') :: alistRemove rest k

/-! ## Data model (`transaction.go`, `block.go`, `blockchain.go`) -/

/-- `TxInput`. -/
structure TxInput where
  txid : Bytes
  vout : Int
  signature : Bytes
  pubKey : Bytes
deriving DecidableEq, Repr

/-- `TxOutput`. -/
structure TxOutput where
  value : Int
  pubKeyHash : Bytes
deriving DecidableEq, Repr

/-- `Transaction`. -/
structure Transaction where
  id : Bytes
  vin : List TxInput
  vout : List TxOutput
deriving DecidableEq, Repr

/-- The Go zero value `Transaction{}` (what a map read returns for a
missing key). -/
instance : Inhabited Transaction := ⟨⟨[], [], []⟩⟩

/-- `Block`. -/
structure Block where
  timestamp : Int
  transactions : List Transaction
  prevHash : Bytes
  hash : Bytes
  nonce : Int
deriving DecidableEq, Repr

instance : Inhabited Block := ⟨⟨0, [], [], [], 0⟩⟩

/-- `Blockchain`: blocks kept in a slice, genesis at index 0. -/
structure Blockchain where
  blocks : List Block
deriving DecidableEq, Repr

/-- `IsCoinbase`: one input with empty `Txid` and `Vout == -1`. -/
def Transaction.IsCoinbase (tx : Transaction) : Bool :=
  match tx.vin with
  | [v] => v.txid.isEmpty && v.vout == -1
  | _ => false

/-- Body of the `TrimmedCopy` input loop: blank signature and pubkey. -/
def blankVin (v : TxInput) : TxInput :=
  { txid := v.txid, vout := v.vout, signature := [], pubKey := [] }

/-- `TrimmedCopy`. -/
def Transaction.TrimmedCopy (tx : Transaction) : Transaction :=
  { id := tx.id
    vin := tx.vin.map blankVin
    vout := tx.vout.map fun o => { value := o.value, pubKeyHash := o.pubKeyHash } }

/-- Go slice indexing `tx.Vout[v]` with an `int` index: `none` models
the runtime panic on a negative or out-of-range index. -/
def outAt (tx : Transaction) (v : Int) : Option TxOutput :=
  if v < 0 then none else tx.vout[v.toNat]?

/-- In-place update of one list element (Go `xs[i] = f xs[i]`);
out-of-range indices leave the list unchanged (never hit below). -/
def modifyAt {α : Type} : List α → Nat → (α → α) → List α
  | [], _, _ => []
  | a :: rest, 0, f => f a :: rest
  | a :: rest, n + 1, f => a :: modifyAt rest n f

/-- The transaction whose hash is signed for input `i`: the trimmed
copy with input `i`'s `PubKey` slot set to the referenced output's
`PubKeyHash` and the `ID` blanked (as `Hash` does before hashing). -/
def SigningHashInput (trimmed : Transaction) (i : Nat) (pk : Bytes) : Transaction :=
  { id := []
    vin := modifyAt trimmed.vin i fun v => { v with pubKey := pk }
    vout := trimmed.vout }

/-- "Reward to " (the `fmt.Sprintf` prefix in `NewCoinbaseTx`). -/
def rewardToBytes : Bytes := [82, 101, 119, 97, 114, 100, 32, 116, 111, 32]

/-- The coinbase output's `PubKeyHash`: the hex-decoded address, with
the raw address bytes as fallback on a decode error, and `nil` for an
empty address (from `NewCoinbaseTx`). -/
def coinbasePubKeyHash (toA : Bytes) : Bytes :=
  if toA = [] then []
  else
    match hexDecode toA with
    | some d => d
    | none => toA

/-- `NewCoinbaseTx`; `setId` abstracts `SetID` (SHA-256 of the gob
serialization of the transaction, whose `ID` is still nil). -/
def NewCoinbaseTx (setId : Transaction → Bytes) (toA data : Bytes) : Transaction :=
  let data := if data = [] then rewardToBytes ++ toA else data
  let txin : TxInput := { txid := [], vout := -1, signature := [], pubKey := data }
  let txout : TxOutput := { value := 15000, pubKeyHash := coinbasePubKeyHash toA }
  let tx : Transaction := { id := [], vin := [txin], vout := [txout] }
  { tx with id := setId tx }

/-! ## Sign and Verify (`transaction.go`) -/

/-- Result of `Sign`: `crash` models the index panic on
`prevTx.Vout[vin.Vout]`, `missingPrev` the "previous transaction not
found" error. -/
inductive SignOutcome where
  | crash
  | missingPrev
  | signed (tx : Transaction)
deriving DecidableEq, Repr

inductive VinsResult where
  | crash
  | missingPrev
  | done (vins : List TxInput)
deriving DecidableEq, Repr

/-- The per-input loop of `Sign`.  `sigAt i msg` is the `(r, s)` pair
`ecdsa.Sign` returns for input `i` on hash `msg` (one draw of the
ambient randomness); the stored signature is
`append(r.Bytes(), s.Bytes()...)` and the stored public key
`append(X.Bytes(), Y.Bytes()...)`. -/
def signVins (txHash : Transaction → Bytes) (sigAt : Nat → Bytes → Nat × Nat)
    (pubXY : Nat × Nat) (prevTXs : List (Bytes × Transaction)) (trimmed : Transaction) :
    Nat → List TxInput → VinsResult
  | _, [] => .done []
  | i, vin :: rest =>
    match alistLookup prevTXs vin.txid with
    | none => .missingPrev
    | some prevTx =>
      match outAt prevTx vin.vout with
      | none => .crash
      | some out =>
        let msg := txHash (SigningHashInput trimmed i out.pubKeyHash)
        let rs := sigAt i msg
        let vin' : TxInput :=
          { vin with
            signature := natToBytes rs.1 ++ natToBytes rs.2
            pubKey := natToBytes pubXY.1 ++ natToBytes pubXY.2 }
        match signVins txHash sigAt pubXY prevTXs trimmed (i + 1) rest with
        | .done l => .done (vin' :: l)
        | .crash => .crash
        | .missingPrev => .missingPrev

/-- `Transaction.Sign`. -/
def Transaction.Sign (txHash : Transaction → Bytes) (sigAt : Nat → Bytes → Nat × Nat)
    (pubXY : Nat × Nat) (tx : Transaction) (prevTXs : List (Bytes × Transaction)) :
    SignOutcome :=
  if tx.IsCoinbase then .signed tx
  else
    match signVins txHash sigAt pubXY prevTXs tx.TrimmedCopy 0 tx.vin with
    | .done l => .signed { tx with vin := l }
    | .missingPrev => .missingPrev
    | .crash => .crash

/-- The per-input loop of `Verify`.  A missing previous transaction
reads the Go map's zero value; the signature and public key are split
at the byte midpoint and re-interpreted with `SetBytes`; `ver` is the
`ecdsa.Verify` primitive.  `none` models the index panic. -/
def verifyVins (ver : Nat × Nat → Bytes → Nat × Nat → Bool)
    (txHash : Transaction → Bytes) (prevTXs : List (Bytes × Transaction))
    (trimmed : Transaction) : Nat → List TxInput → Option Bool
  | _, [] => some true
  | i, vin :: rest =>
    let prevTx := alistGetD prevTXs vin.txid default
    match outAt prevTx vin.vout with
    | none => none
    | some out =>
      let msg := txHash (SigningHashInput trimmed i out.pubKeyHash)
      let r := bytesToNat (vin.signature.take (vin.signature.length / 2))
      let s := bytesToNat (vin.signature.drop (vin.signature.length / 2))
      if vin.pubKey.length = 0 then some false
      else
        let x := bytesToNat (vin.pubKey.take (vin.pubKey.length / 2))
        let y := bytesToNat (vin.pubKey.drop (vin.pubKey.length / 2))
        if ver (x, y) msg (r, s) then verifyVins ver txHash prevTXs trimmed (i + 1) rest
        else some false

/-- `Transaction.Verify`. -/
def Transaction.Verify (ver : Nat × Nat → Bytes → Nat × Nat → Bool)
    (txHash : Transaction → Bytes) (tx : Transaction)
    (prevTXs : List (Bytes × Transaction)) : Option Bool :=
  if tx.IsCoinbase then some true
  else verifyVins ver txHash prevTXs tx.TrimmedCopy 0 tx.vin

/-! ## FindUTXO and the UTXO set (`blockchain.go`, `utxo.go`) -/

/-- The `pubKeyHash == nil || string(out.PubKeyHash) == string(pubKeyHash)`
filter of `FindUTXO`. -/
def filterOk (filter : Option Bytes) (out : TxOutput) : Bool :=
  match filter with
  | none => true
  | some pkh => out.pubKeyHash == pkh

/-- The output loop of `FindUTXO` for one transaction: skip outputs
recorded as spent so far, keep those passing the filter. -/
def scanOuts (filter : Option Bytes) (spentHere : List Int) (txid : Bytes) :
    List TxOutput → Nat → List (Bytes × List TxOutput) → List (Bytes × List TxOutput)
  | [], _, utxos => utxos
  | out :: rest, idx, utxos =>
    let utxos :=
      if spentHere.contains (Int.ofNat idx) then utxos
      else if filterOk filter out then
        alistInsert utxos txid (alistGetD utxos txid [] ++ [out])
      else utxos
    scanOuts filter spentHere txid rest (idx + 1) utxos

/-- One transaction of the `FindUTXO` scan: first collect outputs (the
spent set as accumulated so far), then record this transaction's inputs
as spent when it is not a coinbase. -/
def scanTx (filter : Option Bytes)
    (st : List (Bytes × List Int) × List (Bytes × List TxOutput)) (tx : Transaction) :
    List (Bytes × List Int) × List (Bytes × List TxOutput) :=
  let spent := st.1
  let utxos := scanOuts filter (alistGetD spent tx.id []) tx.id tx.vout 0 st.2
  let spent :=
    if tx.IsCoinbase then spent
    else
      tx.vin.foldl
        (fun s vin => alistInsert s vin.txid (alistGetD s vin.txid [] ++ [vin.vout])) spent
  (spent, utxos)

/-- `Blockchain.FindUTXO`: forward scan over all blocks in chain order. -/
def Blockchain.FindUTXO (bc : Blockchain) (filter : Option Bytes) :
    List (Bytes × List TxOutput) :=
  (bc.blocks.foldl (fun st b => b.transactions.foldl (scanTx filter) st) ([], [])).2

/-- `Blockchain.FindTransaction`: linear scan, first match. -/
def Blockchain.FindTransaction (bc : Blockchain) (id : Bytes) : Option Transaction :=
  bc.blocks.foldl
    (fun acc b =>
      b.transactions.foldl
        (fun acc tx =>
          match acc with
          | some t => some t
          | none => if tx.id = id then some tx else none)
        acc)
    none

/-- `UTXOSet.Reindex`: rebuild the cache map from `FindUTXO(nil)`.  The
Go `UTXOSet` struct holds only the blockchain pointer; the cache map is
the returned value. -/
def UTXOSet.Reindex (bc : Blockchain) : List (Bytes × List TxOutput) :=
  (bc.FindUTXO none).foldl (fun m kv => alistInsert m kv.1 kv.2) []

/-- Inner loop of `FindSpendableOutputs` over one transaction's UTXO
slice: accumulate owner-matching outputs while below `amount`;
the `Bool` reports the early return once `amount` is reached.  Note the
indices are positions in the (already filtered) UTXO slice. -/
def fsoScanOuts (pkh : Bytes) (amount : Int) :
    List TxOutput → Nat → Int → Int × List Int × Bool
  | [], _, acc => (acc, [], false)
  | out :: rest, idx, acc =>
    if out.pubKeyHash = pkh ∧ acc < amount then
      let acc' := acc + out.value
      if amount ≤ acc' then (acc', [Int.ofNat idx], true)
      else
        let r := fsoScanOuts pkh amount rest (idx + 1) acc'
        (r.1, Int.ofNat idx :: r.2.1, r.2.2)
    else fsoScanOuts pkh amount rest (idx + 1) acc

/-- Outer loop of `FindSpendableOutputs` over the UTXO map entries. -/
def fsoScan (pkh : Bytes) (amount : Int) :
    List (Bytes × List TxOutput) → Int → List (Bytes × List Int) →
    Int × List (Bytes × List Int)
  | [], acc, sel => (acc, sel)
  | (txid, outs) :: rest, acc, sel =>
    let r := fsoScanOuts pkh amount outs 0 acc
    let sel := if r.2.1 = [] then sel else sel ++ [(txid, r.2.1)]
    if r.2.2 then (r.1, sel) else fsoScan pkh amount rest r.1 sel

/-- `UTXOSet.FindSpendableOutputs`: scans `FindUTXO(pubKeyHash)` afresh
on every call. -/
def UTXOSet.FindSpendableOutputs (bc : Blockchain) (pkh : Bytes) (amount : Int) :
    Int × List (Bytes × List Int) :=
  fsoScan pkh amount (bc.FindUTXO (some pkh)) 0 []

/-- `UTXOSet.FindUTXO`: thin wrapper over `Blockchain.FindUTXO`. -/
def UTXOSet.FindUTXO (bc : Blockchain) (pkh : Bytes) : List (Bytes × List TxOutput) :=
  bc.FindUTXO (some pkh)

/-- Removal loop in `Update`: the outputs of the slice whose position
differs from the spending input's `Vout`. -/
def removeSpentIdx (outs : List TxOutput) (v : Int) : List TxOutput :=
  (outs.enum.filter fun p => ¬(Int.ofNat p.1 = v)).map fun p => p.2

/-- `UTXOSet.Update`: apply one block's deltas to a UTXO map. -/
def UTXOSet.Update (block : Block) (utxo : List (Bytes × List TxOutput)) :
    List (Bytes × List TxOutput) :=
  block.transactions.foldl
    (fun u tx =>
      let u :=
        if tx.IsCoinbase then u
        else
          tx.vin.foldl
            (fun u vin =>
              let outs := alistGetD u vin.txid []
              let updated := removeSpentIdx outs vin.vout
              if updated = [] then alistRemove u vin.txid
              else alistInsert u vin.txid updated)
            u
      alistInsert u tx.id tx.vout)
    utxo

/-! ## Proof of work (`pow.go`, `block.go`) -/

/-- `targetBits` constant. -/
def targetBits : Nat := 20

/-- The target `1 << (256 - targetBits)`. -/
def powTarget : Nat := 2 ^ (256 - targetBits)

/-- `Block.HashTransactions`: SHA-256 over the concatenation of the
transaction ids, in block order. -/
def Block.HashTransactions (sha : Bytes → Bytes) (b : Block) : Bytes :=
  sha (b.transactions.map Transaction.id).flatten

/-- `prepareData`: the bytes hashed for a nonce.  It reads only
`PrevHash`, the transactions, and `Timestamp` of the block. -/
def prepareData (sha : Bytes → Bytes) (b : Block) (nonce : Int) : Bytes :=
  b.prevHash ++ b.HashTransactions sha ++ intToHex b.timestamp ++
    intToHex (Int.ofNat targetBits) ++ intToHex nonce

/-- The loop condition of `Run`/`Validate`: the hash of the prepared
data, read as a big-endian integer, is strictly below the target. -/
def powCondB (sha : Bytes → Bytes) (b : Block) (n : Nat) : Bool :=
  decide (bytesToNat (sha (prepareData sha b (Int.ofNat n))) < powTarget)

/-- The search loop of `Run`, starting at `nonce` and incrementing by
one.  The Go loop has no bound; `fuel` makes the embedding total, with
`none` for a search that has not yet returned. -/
def powRunLoop (sha : Bytes → Bytes) (b : Block) : Nat → Nat → Option (Nat × Bytes)
  | _, 0 => none
  | nonce, fuel + 1 =>
    let hash := sha (prepareData sha b (Int.ofNat nonce))
    if bytesToNat hash < powTarget then some (nonce, hash)
    else powRunLoop sha b (nonce + 1) fuel

/-- `ProofOfWork.Validate`: one hash with the stored nonce. -/
def PowValidate (sha : Bytes → Bytes) (b : Block) : Bool :=
  decide (bytesToNat (sha (prepareData sha b b.nonce)) < powTarget)

/-- `NewBlock`: build the block (hash empty, nonce 0), run the
proof-of-work, store the found nonce and hash.  `ts` is the
`time.Now().Unix()` timestamp, supplied by the environment. -/
def NewBlock (sha : Bytes → Bytes) (fuel : Nat) (ts : Int) (txs : List Transaction)
    (prevHash : Bytes) : Option Block :=
  let b : Block := { timestamp := ts, transactions := txs, prevHash := prevHash
                     hash := [], nonce := 0 }
  match powRunLoop sha b 0 fuel with
  | none => none
  | some nh => some { b with hash := nh.2, nonce := Int.ofNat nh.1 }

/-- `Blockchain.AddBlock`: mine on the last block's hash and append.
Go indexes `Blocks[len(Blocks)-1]`; chains are created non-empty
(genesis), and `getLastD` returns the zero block on an empty slice. -/
def lastBlockHash (bc : Blockchain) : Bytes :=
  (bc.blocks.getLastD default).hash

def Blockchain.AddBlock (sha : Bytes → Bytes) (fuel : Nat) (ts : Int)
    (bc : Blockchain) (txs : List Transaction) : Option (Blockchain × Block) :=
  let prevHash := lastBlockHash bc
  match NewBlock sha fuel ts txs prevHash with
  | none => none
  | some b => some (⟨bc.blocks ++ [b]⟩, b)

/-! ## Wallet (`wallet.go`) and API handlers (`handlers.go`) -/

/-- `ValidateAddress`: the source checks only `len(address) > 0`. -/
def ValidateAddress (address : Bytes) : Bool :=
  decide (0 < address.length)

/-- The abstracted cryptographic environment of the handlers: SHA-256
over raw bytes, the two gob-then-SHA-256 transaction hashes, the ECDSA
signing output per input, the scalar-to-point map, and `ecdsa.Verify`. -/
structure CryptoEnv where
  sha : Bytes → Bytes
  txHash : Transaction → Bytes
  setId : Transaction → Bytes
  sigAt : Nat → Bytes → Nat × Nat
  pubOf : Nat → Nat × Nat
  ver : Nat × Nat → Bytes → Nat × Nat → Bool

/-- HTTP handler outcome: an `http.Error` with status code and message,
or a success value. -/
inductive HttpOut (α : Type) where
  | httpErr (code : Nat) (msg : String)
  | ok (val : α)
deriving DecidableEq, Repr

/-- `balanceForAddress` helper from `handlers.go`: `none` for either
"invalid address" error path. -/
def balanceForAddress (bc : Blockchain) (address : Bytes) : Option (Int × Bytes) :=
  if !ValidateAddress address then none
  else
    match hexDecode address with
    | none => none
    | some pkh =>
      let utxos := bc.FindUTXO (some pkh)
      let balance :=
        utxos.foldl
          (fun acc kv =>
            kv.2.foldl
              (fun acc out => if out.pubKeyHash = pkh then acc + out.value else acc)
              acc)
          0
      some (balance, pkh)

/-- `collectPrevTXs`: the previous-transaction map built by
`VerifyTransaction` (and by signing helpers); `none` when some
referenced transaction is not on the chain. -/
def collectPrevTXs (bc : Blockchain) : List TxInput → Option (List (Bytes × Transaction))
  | [] => some []
  | vin :: rest =>
    match bc.FindTransaction vin.txid with
    | none => none
    | some ptx =>
      match collectPrevTXs bc rest with
      | none => none
      | some l => some ((vin.txid, ptx) :: l)

/-- `Blockchain.VerifyTransaction`: coinbase transactions are always
valid; a missing referenced transaction yields `false`; otherwise
delegate to `Transaction.Verify` (whose `none` models the panic). -/
def Blockchain.VerifyTransaction (ver : Nat × Nat → Bytes → Nat × Nat → Bool)
    (txHash : Transaction → Bytes) (bc : Blockchain) (tx : Transaction) : Option Bool :=
  if tx.IsCoinbase then some true
  else
    match collectPrevTXs bc tx.vin with
    | none => some false
    | some prevTXs => tx.Verify ver txHash prevTXs

/-- Modelled from the spec: `NewUTXOTransaction` is called by the send
handler but its definition is not under `src/`; per spec §4.2
`new_transfer`, it builds one unsigned input per selected output, one
output of `amount` to the recipient, a change output of the remainder
back to the spender when the selected value exceeds `amount`, fails
when the selected outputs sum to less than `amount`, computes the id,
and signs the transaction with the spender's key. -/
def NewUTXOTransaction (txHash : Transaction → Bytes) (setId : Transaction → Bytes)
    (sigAt : Nat → Bytes → Nat × Nat) (pubXY : Nat × Nat) (toAddr : Bytes)
    (amount : Int) (bc : Blockchain) (spendable : List (Bytes × List Int))
    (fromPubKeyHash : Bytes) (accumulated : Int) : Option Transaction :=
  if accumulated < amount then none
  else
    let inputs :=
      spendable.foldl
        (fun acc kv =>
          acc ++ kv.2.map fun idx =>
            ({ txid := kv.1, vout := idx, signature := [], pubKey := [] } : TxInput))
        []
    let outs := [({ value := amount, pubKeyHash := (hexDecodeGo toAddr).1 } : TxOutput)]
    let outs :=
      if amount < accumulated then
        outs ++ [{ value := accumulated - amount, pubKeyHash := fromPubKeyHash }]
      else outs
    let tx : Transaction := { id := [], vin := inputs, vout := outs }
    let tx := { tx with id := setId tx }
    match collectPrevTXs bc tx.vin with
    | none => none
    | some prevTXs =>
      match tx.Sign txHash sigAt pubXY prevTXs with
      | .signed tx' => some tx'
      | _ => none

/-- A transaction row persisted through `SaveTransaction`. -/
structure SavedTxRec where
  blockHash : Bytes
  tx : Transaction
  fromAddr : Bytes
  toAddr : Bytes
  amount : Int
  kind : String
deriving DecidableEq, Repr

/-- The server state: the chain plus the external row store (modelled
as lists of saved rows; `dbEnabled` is `s.DB != nil`).  Saving in the
send handler happens in a goroutine in the source; it is modelled as a
synchronous append. -/
structure ServerState where
  bc : Blockchain
  savedBlocks : List (Nat × Block)
  savedTxs : List SavedTxRec
  dbEnabled : Bool
deriving DecidableEq, Repr

/-- The JSON body of a send request. -/
structure TxRequest where
  fromAddr : Bytes
  toAddr : Bytes
  amount : Int
  privKey : Bytes
deriving DecidableEq, Repr

/-- `SendTransaction` handler.  `fuel`/`ts` parameterize the mining
loop and timestamp; `none` models a proof-of-work search that has not
returned (or a Verify panic).  Note the handler ignores the error of
`hex.DecodeString(req.From)` and discards the `Reindex` result. -/
def SendTransaction (env : CryptoEnv) (fuel : Nat) (ts : Int) (st : ServerState)
    (req : TxRequest) : Option (ServerState × HttpOut String) :=
  if !(ValidateAddress req.fromAddr && ValidateAddress req.toAddr) then
    some (st, .httpErr 400 "invalid address")
  else if req.amount ≤ 0 then some (st, .httpErr 400 "amount must be positive")
  else
    match hexDecode req.privKey with
    | none => some (st, .httpErr 400 "invalid private key")
    | some dBytes =>
      let privD := bytesToNat dBytes
      let pubXY := env.pubOf privD
      let fromPubKeyHash := (hexDecodeGo req.fromAddr).1
      let found := UTXOSet.FindSpendableOutputs st.bc fromPubKeyHash req.amount
      if found.1 < req.amount then some (st, .httpErr 400 "insufficient funds")
      else
        match NewUTXOTransaction env.txHash env.setId env.sigAt pubXY req.toAddr
            req.amount st.bc found.2 fromPubKeyHash found.1 with
        | none => some (st, .httpErr 400 "failed to create transaction")
        | some tx =>
          match st.bc.VerifyTransaction env.ver env.txHash tx with
          | none => none
          | some false => some (st, .httpErr 400 "invalid transaction")
          | some true =>
            match st.bc.AddBlock env.sha fuel ts [tx] with
            | none => none
            | some bcb =>
              let height := bcb.1.blocks.length - 1
              let st' := { st with bc := bcb.1 }
              let st' :=
                if st'.dbEnabled then
                  { st' with
                    savedBlocks := st'.savedBlocks ++ [(height, bcb.2)]
                    savedTxs := st'.savedTxs ++
                      [{ blockHash := hexEncode bcb.2.hash, tx := tx
                         fromAddr := req.fromAddr, toAddr := req.toAddr
                         amount := req.amount, kind := "send" }] }
                else st'
              let _ := UTXOSet.Reindex st'.bc
              some (st', .ok "transaction mined")

/-- "admin_faucet_reward". -/
def adminFaucetData : Bytes :=
  [97, 100, 109, 105, 110, 95, 102, 97, 117, 99, 101, 116, 95, 114, 101, 119, 97, 114, 100]

/-- "SYSTEM". -/
def systemBytes : Bytes := [83, 89, 83, 84, 69, 77]

/-- The JSON body of an admin faucet request. -/
structure FundWalletRequest where
  address : Bytes
  amount : Int
deriving DecidableEq, Repr

/-- The JSON response of the admin faucet. -/
structure FundWalletResponse where
  address : Bytes
  amount : Int
  blockHash : Bytes
deriving DecidableEq, Repr

/-- `FundWallet` handler: mints a coinbase transaction (fixed reward)
to the requested address, mines a block with it, discards the
`Reindex` result, and persists/reports the requested amount. -/
def FundWallet (env : CryptoEnv) (fuel : Nat) (ts : Int) (st : ServerState)
    (req : FundWalletRequest) : Option (ServerState × HttpOut FundWalletResponse) :=
  if req.address.isEmpty || req.amount ≤ 0 then
    some (st, .httpErr 400 "address and positive amount are required")
  else if !ValidateAddress req.address then some (st, .httpErr 400 "invalid address")
  else
    let cbTx := NewCoinbaseTx env.setId req.address adminFaucetData
    match st.bc.AddBlock env.sha fuel ts [cbTx] with
    | none => none
    | some bcb =>
      let _ := UTXOSet.Reindex bcb.1
      let blockHashHex := hexEncode bcb.2.hash
      let st' := { st with bc := bcb.1 }
      let st' :=
        if st'.dbEnabled then
          let st' := { st' with
            savedBlocks := st'.savedBlocks ++ [(bcb.1.blocks.length - 1, bcb.2)] }
          if 0 < bcb.2.transactions.length then
            { st' with savedTxs := st'.savedTxs ++
                [{ blockHash := blockHashHex, tx := bcb.2.transactions.headD default
                   fromAddr := systemBytes, toAddr := req.address
                   amount := req.amount, kind := "reward" }] }
          else st'
        else st'
      some (st', .ok { address := req.address, amount := req.amount
                       blockHash := blockHashHex })

/-! ## The UTXO index as a cached state (`utxo.go` callers)

The Go `UTXOSet` struct stores only the blockchain pointer; the cache
maps live with the callers (`Reindex` returns one, `Update` mutates
one).  `IndexedState` pairs a chain with such a caller-held map. -/

inductive IndexOp where
  | reindexOp
  | updateOp (b : Block)

structure IndexedState where
  bc : Blockchain
  cache : List (Bytes × List TxOutput)

def applyOp (st : IndexedState) : IndexOp → IndexedState
  | .reindexOp => { st with cache := UTXOSet.Reindex st.bc }
  | .updateOp b => { st with cache := UTXOSet.Update b st.cache }

def applyOps (st : IndexedState) (ops : List IndexOp) : IndexedState :=
  ops.foldl applyOp st

/-! ## Definitions following the spec's words (refinement references) -/

/-- Following the spec's words: an output `(txid, i)` is spent iff some
input of some non-coinbase transaction anywhere in the chain references
it. -/
def SpecSpent (bc : Blockchain) (txid : Bytes) (i : Int) : Bool :=
  bc.blocks.any fun b =>
    b.transactions.any fun tx =>
      !tx.IsCoinbase && tx.vin.any fun v => v.txid == txid && v.vout == i

/-- Following the spec's words: a structurally well-formed address is
non-empty, valid hex, and of the length of a hex-encoded public-key
hash (SHA-256, so 32 bytes, 64 hex characters). -/
def SpecAddressWellFormed (a : Bytes) : Bool :=
  !a.isEmpty && (hexDecode a).isSome && a.length == 64

/-! ## Byte-length side conditions of the signature encoding -/

/-- The stored signature `append(r.Bytes(), s.Bytes()...)` is re-split
at the byte midpoint by `Verify`; the split recovers `(r, s)` exactly
when the minimal encoding of `s` is as long as that of `r` or one byte
longer. -/
def lenOkB (rs : Nat × Nat) : Bool :=
  (natToBytes rs.2).length == (natToBytes rs.1).length ||
    (natToBytes rs.2).length == (natToBytes rs.1).length + 1

/-- The claim-side well-formedness of `Verify`'s inputs: every input's
referenced transaction is present and its output index in range. -/
def PrevOk (prevTXs : List (Bytes × Transaction)) (tx : Transaction) : Bool :=
  tx.vin.all fun v =>
    match alistLookup prevTXs v.txid with
    | none => false
    | some p => (outAt p v.vout).isSome

/-! ## Concrete data used by counterexamples and witnesses -/

/-- A coinbase transaction with id `[1]` paying 10 to owner `[7]`. -/
def txA : Transaction :=
  { id := [1], vin := [{ txid := [], vout := -1, signature := [], pubKey := [] }]
    vout := [{ value := 10, pubKeyHash := [7] }] }

/-- A transaction with id `[2]` spending output 0 of `txA`, paying 10
to owner `[8]`. -/
def txB : Transaction :=
  { id := [2], vin := [{ txid := [1], vout := 0, signature := [3], pubKey := [4] }]
    vout := [{ value := 10, pubKeyHash := [8] }] }

def blkA : Block := { timestamp := 0, transactions := [txA], prevHash := []
                      hash := [5], nonce := 0 }

def blkB : Block := { timestamp := 1, transactions := [txB], prevHash := [5]
                      hash := [6], nonce := 0 }

/-- The two-block chain in which `(txA, 0)` has been spent by `txB`. -/
def chain2 : Blockchain := ⟨[blkA, blkB]⟩

/-- SHA-256 stand-in mapping everything to 32 zero bytes (any hash is
then below the proof-of-work target). -/
def shaZ : Bytes → Bytes := fun _ => List.replicate 32 0

/-- A concrete crypto environment for witnesses. -/
def envW : CryptoEnv :=
  { sha := shaZ, txHash := fun _ => [], setId := fun _ => []
    sigAt := fun _ _ => (1, 1), pubOf := fun _ => (1, 2), ver := fun _ _ _ => true }

/-- The zero block, used as a trivial genesis for witnesses. -/
def blkW : Block := { timestamp := 0, transactions := [], prevHash := []
                      hash := [], nonce := 0 }

/-- The block `NewBlock shaZ` mines on an empty chain tip. -/
def blkMined : Block := { timestamp := 0, transactions := [], prevHash := []
                          hash := List.replicate 32 0, nonce := 0 }

def stW : ServerState := { bc := ⟨[blkW]⟩, savedBlocks := [], savedTxs := []
                           dbEnabled := true }

/-- Send request from address "07" with no funds on chain. -/
def reqW : TxRequest := { fromAddr := [48, 55], toAddr := [48, 56], amount := 5
                          privKey := [48, 49] }

/-- Faucet request: address "07", amount 3. -/
def reqF : FundWalletRequest := { address := [48, 55], amount := 3 }

/-- The coinbase transaction `FundWallet` creates for `reqF` under
`envW` (id from the stand-in `setId`). -/
def cbW : Transaction :=
  { id := [], vin := [{ txid := [], vout := -1, signature := [], pubKey := adminFaucetData }]
    vout := [{ value := 15000, pubKeyHash := [7] }] }

/-- The block `FundWallet` mines for `reqF` under `envW`. -/
def blkF : Block := { timestamp := 0, transactions := [cbW], prevHash := []
                      hash := List.replicate 32 0, nonce := 0 }

/-- The server state after `FundWallet envW 1 0 stW reqF`. -/
def stF : ServerState :=
  { bc := ⟨[blkW, blkF]⟩
    savedBlocks := [(1, blkF)]
    savedTxs := [{ blockHash := hexEncode (List.replicate 32 0), tx := cbW
                   fromAddr := systemBytes, toAddr := [48, 55], amount := 3
                   kind := "reward" }]
    dbEnabled := true }

/-- The response of `FundWallet envW 1 0 stW reqF`. -/
def respF : FundWalletResponse :=
  { address := [48, 55], amount := 3, blockHash := hexEncode (List.replicate 32 0) }

/-- Previous transaction referenced in the sign/verify examples. -/
def prevC3 : Transaction := { id := [9], vin := [], vout := [{ value := 10, pubKeyHash := [7] }] }

/-- A one-input transaction referencing `(prevC3, 0)`. -/
def txC3 : Transaction :=
  { id := [1], vin := [{ txid := [9], vout := 0, signature := [], pubKey := [] }]
    vout := [{ value := 10, pubKeyHash := [8] }] }

def prevsC3 : List (Bytes × Transaction) := [([9], prevC3)]

/-- Gob/SHA-256 stand-in for the sign/verify examples. -/
def txHashC3 : Transaction → Bytes := fun _ => [3]

/-- An ECDSA draw whose `r` encoding ([1,0]) is longer than its `s`
encoding ([1]): the midpoint re-split then misparses the signature. -/
def sigAtC3 : Nat → Bytes → Nat × Nat := fun _ _ => (256, 1)

/-- A conforming ECDSA verifier accepting exactly the pair produced by
`sigAtC3` under public key `(1, 2)`. -/
def verC3 : Nat × Nat → Bytes → Nat × Nat → Bool :=
  fun p _ rs => p == (1, 2) && rs == (256, 1)

/-- `txC3` signed with `sigAtC3` and key `(1, 2)`. -/
def txC3signed : Transaction :=
  { txC3 with vin := [{ txid := [9], vout := 0, signature := [1, 0, 1], pubKey := [1, 2] }] }

/-- An ECDSA draw with equal-length components (no split anomaly). -/
def sigAtOk : Nat → Bytes → Nat × Nat := fun _ _ => (3, 4)

/-- A conforming verifier for `sigAtOk` under public key `(1, 2)`. -/
def verOk : Nat × Nat → Bytes → Nat × Nat → Bool :=
  fun p _ rs => p == (1, 2) && rs == (3, 4)

/-- `txC3` signed with `sigAtOk` and key `(1, 2)`. -/
def txC3ok : Transaction :=
  { txC3 with vin := [{ txid := [9], vout := 0, signature := [3, 4], pubKey := [1, 2] }] }

/-- A transaction with empty signature and public key on its input. -/
def txC7 : Transaction :=
  { id := [1], vin := [{ txid := [9], vout := 0, signature := [], pubKey := [] }]
    vout := [] }

/-- A transaction with an odd-length (3-byte) signature whose midpoint
re-split happens to recover a valid signature. -/
def txC7odd : Transaction :=
  { id := [1], vin := [{ txid := [9], vout := 0, signature := [5, 1, 0], pubKey := [3, 3] }]
    vout := [] }

/-- A verifier accepting the pair `(5, 256)` — the pair the midpoint
split recovers from the odd-length signature `[5, 1, 0]`. -/
def verC7 : Nat × Nat → Bytes → Nat × Nat → Bool := fun _ _ rs => rs == (5, 256)

/-! ## Helper lemmas -/

theorem bytesToNat_append_singleton (xs : List Nat) (b : Nat) :
    bytesToNat (xs ++ [b]) = bytesToNat xs * 256 + b := by
  simp [bytesToNat, List.foldl_append]

theorem natToBytesAux_congr : ∀ (n fuel fuel' : Nat), n ≤ fuel → n ≤ fuel' →
    natToBytesAux fuel n = natToBytesAux fuel' n := by
  intro n
  induction n using Nat.strong_induction_on with
  | _ n ih =>
    intro fuel fuel' h1 h2
    cases n with
    | zero => cases fuel <;> cases fuel' <;> rfl
    | succ m =>
      cases fuel with
      | zero => omega
      | succ f =>
        cases fuel' with
        | zero => omega
        | succ f' =>
          simp only [natToBytesAux]
          rw [ih ((m + 1) / 256) (by omega) f f' (by omega) (by omega)]

/-- The defining equation of `natToBytes`. -/
theorem natToBytes_eq (n : Nat) :
    natToBytes n = if n = 0 then [] else natToBytes (n / 256) ++ [n % 256] := by
  cases n with
  | zero => rfl
  | succ m =>
    rw [if_neg (Nat.succ_ne_zero m)]
    simp only [natToBytes, natToBytesAux]
    rw [natToBytesAux_congr ((m + 1) / 256) m ((m + 1) / 256) (by omega) (Nat.le_refl _)]

/-- `SetBytes` inverts `Bytes()` (minimal big-endian round trip). -/
theorem bytesToNat_natToBytes (n : Nat) : bytesToNat (natToBytes n) = n := by
  induction n using Nat.strong_induction_on with
  | _ n ih =>
    rw [natToBytes_eq]
    by_cases h : n = 0
    · simp [h, bytesToNat]
    · rw [if_neg h, bytesToNat_append_singleton,
        ih (n / 256) (Nat.div_lt_self (Nat.pos_of_ne_zero h) (by decide))]
      omega

/-- Splitting a concatenation at the byte midpoint recovers the two
halves exactly when the second is as long as the first or one byte
longer. -/
theorem take_drop_half (a b : List Nat)
    (h : b.length = a.length ∨ b.length = a.length + 1) :
    (a ++ b).take ((a ++ b).length / 2) = a ∧ (a ++ b).drop ((a ++ b).length / 2) = b := by
  have hlen : (a ++ b).length / 2 = a.length := by
    rw [List.length_append]; omega
  rw [hlen]
  exact ⟨List.take_left a b, List.drop_left a b⟩

/-- The midpoint re-split of `append(r.Bytes(), s.Bytes()...)` recovers
`(r, s)` under the length side condition. -/
theorem sig_split_roundtrip (r s : Nat) (h : lenOkB (r, s) = true) :
    bytesToNat ((natToBytes r ++ natToBytes s).take
        ((natToBytes r ++ natToBytes s).length / 2)) = r
    ∧ bytesToNat ((natToBytes r ++ natToBytes s).drop
        ((natToBytes r ++ natToBytes s).length / 2)) = s := by
  have h' : (natToBytes s).length = (natToBytes r).length
      ∨ (natToBytes s).length = (natToBytes r).length + 1 := by
    simpa [lenOkB] using h
  obtain ⟨h1, h2⟩ := take_drop_half (natToBytes r) (natToBytes s) h'
  rw [h1, h2, bytesToNat_natToBytes, bytesToNat_natToBytes]
  exact ⟨rfl, rfl⟩

/-- Signing rewrites only the signature and public-key fields. -/
theorem signVins_map_blank (txHash : Transaction → Bytes) (sigAt : Nat → Bytes → Nat × Nat)
    (pubXY : Nat × Nat) (prevTXs : List (Bytes × Transaction)) (trimmed : Transaction) :
    ∀ (vins : List TxInput) (i : Nat) (l : List TxInput),
      signVins txHash sigAt pubXY prevTXs trimmed i vins = .done l →
      l.map blankVin = vins.map blankVin := by
  intro vins
  induction vins with
  | nil =>
    intro i l h
    simp only [signVins] at h
    injection h with h'
    rw [← h']
  | cons vin rest ih =>
    intro i l h
    cases hlk : alistLookup prevTXs vin.txid with
    | none => simp [signVins, hlk] at h
    | some prevTx =>
      cases ho : outAt prevTx vin.vout with
      | none => simp [signVins, hlk, ho] at h
      | some out =>
        cases hrec : signVins txHash sigAt pubXY prevTXs trimmed (i + 1) rest with
        | crash => simp [signVins, hlk, ho, hrec] at h
        | missingPrev => simp [signVins, hlk, ho, hrec] at h
        | done l0 =>
          simp only [signVins, hlk, ho, hrec, VinsResult.done.injEq] at h
          rw [← h]
          simp only [List.map]
          rw [ih (i + 1) l0 hrec]
          rfl

/-- Transactions whose inputs agree after blanking agree on
`IsCoinbase`. -/
theorem isCoinbase_map_blank (l1 l2 : List TxInput)
    (h : l1.map blankVin = l2.map blankVin) (id1 id2 : Bytes)
    (vo1 vo2 : List TxOutput) :
    Transaction.IsCoinbase ⟨id1, l1, vo1⟩ = Transaction.IsCoinbase ⟨id2, l2, vo2⟩ := by
  unfold Transaction.IsCoinbase
  cases l1 with
  | nil => cases l2 with
    | nil => rfl
    | cons b tl => simp at h
  | cons a tl =>
    cases l2 with
    | nil => simp at h
    | cons b tl2 =>
      simp only [List.map, List.cons.injEq] at h
      obtain ⟨hab, htl⟩ := h
      have h1 := congrArg TxInput.txid hab
      have h2 := congrArg TxInput.vout hab
      simp only [blankVin] at h1 h2
      cases tl with
      | nil =>
        cases tl2 with
        | nil => simp [h1, h2]
        | cons c tl3 => simp at htl
      | cons c tl3 =>
        cases tl2 with
        | nil => simp at htl
        | cons d tl4 => rfl

/-- After a successful `signVins`, the `verifyVins` loop accepts: the
midpoint splits recover the stored `(r, s)` and public key, and the
ECDSA primitive accepts each recovered signature on the recomputed
per-input hash. -/
theorem signVins_verifyVins (ver : Nat × Nat → Bytes → Nat × Nat → Bool)
    (txHash : Transaction → Bytes) (sigAt : Nat → Bytes → Nat × Nat) (pubXY : Nat × Nat)
    (prevTXs : List (Bytes × Transaction)) (trimmed : Transaction)
    (hk0 : natToBytes pubXY.1 ++ natToBytes pubXY.2 ≠ [])
    (hklen : lenOkB pubXY = true) :
    ∀ (vins : List TxInput) (i : Nat) (l : List TxInput),
      signVins txHash sigAt pubXY prevTXs trimmed i vins = .done l →
      (∀ (k : Nat) (vin : TxInput) (prevTx : Transaction) (out : TxOutput),
          vins[k]? = some vin → alistLookup prevTXs vin.txid = some prevTx →
          outAt prevTx vin.vout = some out →
          ver pubXY (txHash (SigningHashInput trimmed (i + k) out.pubKeyHash))
            (sigAt (i + k) (txHash (SigningHashInput trimmed (i + k) out.pubKeyHash))) = true) →
      (∀ (k : Nat) (msg : Bytes), lenOkB (sigAt k msg) = true) →
      verifyVins ver txHash prevTXs trimmed i l = some true := by
  intro vins
  induction vins with
  | nil =>
    intro i l h _ _
    simp only [signVins] at h
    injection h with h'
    rw [← h']
    rfl
  | cons vin rest ih =>
    intro i l h hv hl
    cases hlk : alistLookup prevTXs vin.txid with
    | none => simp [signVins, hlk] at h
    | some prevTx =>
      cases ho : outAt prevTx vin.vout with
      | none => simp [signVins, hlk, ho] at h
      | some out =>
        cases hrec : signVins txHash sigAt pubXY prevTXs trimmed (i + 1) rest with
        | crash => simp [signVins, hlk, ho, hrec] at h
        | missingPrev => simp [signVins, hlk, ho, hrec] at h
        | done l0 =>
          simp only [signVins, hlk, ho, hrec, VinsResult.done.injEq] at h
          rw [← h]
          set msg := txHash (SigningHashInput trimmed i out.pubKeyHash) with hmsg
          have hrs := hl i msg
          obtain ⟨hr, hs⟩ := sig_split_roundtrip (sigAt i msg).1 (sigAt i msg).2 hrs
          obtain ⟨hx, hy⟩ := sig_split_roundtrip pubXY.1 pubXY.2 hklen
          simp only [verifyVins]
          have hgd : alistGetD prevTXs vin.txid default = prevTx := by
            simp [alistGetD, hlk]
          rw [hgd, ho]
          simp only
          rw [hr, hs, hx, hy]
          have hklen0 : ¬ (natToBytes pubXY.1 ++ natToBytes pubXY.2).length = 0 := by
            intro hc
            exact hk0 (List.length_eq_zero.mp hc)
          rw [if_neg hklen0]
          have hver := hv 0 vin prevTx out (by simp) hlk ho
          simp only [Nat.add_zero] at hver
          rw [← hmsg] at hver
          rw [if_pos hver]
          apply ih (i + 1) l0 hrec
          · intro k vin1 prevTx1 out1 h1 h2 h3
            have := hv (k + 1) vin1 prevTx1 out1 (by simpa using h1) h2 h3
            have harith : i + (k + 1) = i + 1 + k := by omega
            rw [harith] at this
            exact this
          · exact hl

/-- The `verifyVins` loop is total (returns `some`) when every input's
referenced transaction is present with an in-range output index. -/
theorem verifyVins_total (ver : Nat × Nat → Bytes → Nat × Nat → Bool)
    (txHash : Transaction → Bytes) (prevTXs : List (Bytes × Transaction))
    (trimmed : Transaction) :
    ∀ (vins : List TxInput) (i : Nat),
      (vins.all fun v =>
        match alistLookup prevTXs v.txid with
        | none => false
        | some p => (outAt p v.vout).isSome) = true →
      ∃ b, verifyVins ver txHash prevTXs trimmed i vins = some b := by
  intro vins
  induction vins with
  | nil => intro i _; exact ⟨true, rfl⟩
  | cons vin rest ih =>
    intro i hall
    simp only [List.all_cons, Bool.and_eq_true] at hall
    obtain ⟨hv, hrest⟩ := hall
    cases hlk : alistLookup prevTXs vin.txid with
    | none => rw [hlk] at hv; simp at hv
    | some p =>
      rw [hlk] at hv
      simp only [Option.isSome_iff_exists] at hv
      obtain ⟨out, ho⟩ := hv
      have hgd : alistGetD prevTXs vin.txid default = p := by
        simp [alistGetD, hlk]
      by_cases hk : vin.pubKey.length = 0
      · exact ⟨false, by simp only [verifyVins, hgd, ho]; rw [if_pos hk]⟩
      · obtain ⟨b, hb⟩ := ih (i + 1) hrest
        cases hvr : ver
            (bytesToNat (vin.pubKey.take (vin.pubKey.length / 2)),
             bytesToNat (vin.pubKey.drop (vin.pubKey.length / 2)))
            (txHash (SigningHashInput trimmed i out.pubKeyHash))
            (bytesToNat (vin.signature.take (vin.signature.length / 2)),
             bytesToNat (vin.signature.drop (vin.signature.length / 2))) with
        | false =>
          refine ⟨false, ?_⟩
          simp only [verifyVins, hgd, ho]
          rw [if_neg hk, if_neg (by simp [hvr])]
        | true =>
          refine ⟨b, ?_⟩
          simp only [verifyVins, hgd, ho]
          rw [if_neg hk, if_pos (by simp [hvr])]
          exact hb

/-- If some input of the loop carries an empty public key or an empty
signature (with an ECDSA primitive rejecting `r = 0`), the loop returns
`some false`. -/
theorem verifyVins_false (ver : Nat × Nat → Bytes → Nat × Nat → Bool)
    (txHash : Transaction → Bytes) (prevTXs : List (Bytes × Transaction))
    (trimmed : Transaction)
    (hzero : ∀ p m s2, ver p m (0, s2) = false) :
    ∀ (vins : List TxInput) (i : Nat),
      (vins.all fun v =>
        match alistLookup prevTXs v.txid with
        | none => false
        | some p => (outAt p v.vout).isSome) = true →
      (vins.any fun v => v.pubKey.isEmpty || v.signature.isEmpty) = true →
      verifyVins ver txHash prevTXs trimmed i vins = some false := by
  intro vins
  induction vins with
  | nil => intro i _ hany; simp at hany
  | cons vin rest ih =>
    intro i hall hany
    simp only [List.all_cons, Bool.and_eq_true] at hall
    obtain ⟨hv, hrest⟩ := hall
    cases hlk : alistLookup prevTXs vin.txid with
    | none => rw [hlk] at hv; simp at hv
    | some p =>
      rw [hlk] at hv
      simp only [Option.isSome_iff_exists] at hv
      obtain ⟨out, ho⟩ := hv
      have hgd : alistGetD prevTXs vin.txid default = p := by
        simp [alistGetD, hlk]
      simp only [List.any_cons, Bool.or_eq_true] at hany
      by_cases hk : vin.pubKey.length = 0
      · simp only [verifyVins, hgd, ho]
        rw [if_pos hk]
      · rcases hany with htrig | hrest_any
        · rcases htrig with hpk | hsig
          · exact absurd (by simpa [List.isEmpty_iff, List.length_eq_zero] using hpk) hk
          · have hsgn : vin.signature = [] := by simpa [List.isEmpty_iff] using hsig
            have hvf : ver
                (bytesToNat (vin.pubKey.take (vin.pubKey.length / 2)),
                 bytesToNat (vin.pubKey.drop (vin.pubKey.length / 2)))
                (txHash (SigningHashInput trimmed i out.pubKeyHash))
                (bytesToNat (vin.signature.take (vin.signature.length / 2)),
                 bytesToNat (vin.signature.drop (vin.signature.length / 2))) = false := by
              rw [hsgn]
              exact hzero _ _ _
            simp only [verifyVins, hgd, ho]
            rw [if_neg hk, if_neg (by simp [hvf])]
        · cases hvr : ver
              (bytesToNat (vin.pubKey.take (vin.pubKey.length / 2)),
               bytesToNat (vin.pubKey.drop (vin.pubKey.length / 2)))
              (txHash (SigningHashInput trimmed i out.pubKeyHash))
              (bytesToNat (vin.signature.take (vin.signature.length / 2)),
               bytesToNat (vin.signature.drop (vin.signature.length / 2))) with
          | false =>
            simp only [verifyVins, hgd, ho]
            rw [if_neg hk, if_neg (by simp [hvr])]
          | true =>
            simp only [verifyVins, hgd, ho]
            rw [if_neg hk, if_pos (by simp [hvr])]
            exact ih (i + 1) hrest hrest_any

/-- Soundness and minimality of the `Run` search loop. -/
theorem powRunLoop_sound (sha : Bytes → Bytes) (b : Block) :
    ∀ (fuel s n : Nat) (h : Bytes), powRunLoop sha b s fuel = some (n, h) →
      s ≤ n ∧ powCondB sha b n = true ∧ h = sha (prepareData sha b (Int.ofNat n)) ∧
        ∀ m, s ≤ m → m < n → powCondB sha b m = false := by
  intro fuel
  induction fuel with
  | zero => intro s n h hrun; simp [powRunLoop] at hrun
  | succ fuel ih =>
    intro s n h hrun
    by_cases hc : bytesToNat (sha (prepareData sha b (Int.ofNat s))) < powTarget
    · have : powRunLoop sha b s (fuel + 1) =
          some (s, sha (prepareData sha b (Int.ofNat s))) := by
        simp only [powRunLoop]
        rw [if_pos hc]
      rw [this] at hrun
      obtain ⟨h1, h2⟩ := Prod.mk.injEq .. ▸ Option.some.inj hrun
      refine ⟨h1 ▸ Nat.le_refl s, ?_, h2.symm ▸ ?_, ?_⟩
      · rw [← h1]; exact decide_eq_true hc
      · rw [← h1]
      · intro m hm1 hm2
        rw [← h1] at hm2
        omega
    · have : powRunLoop sha b s (fuel + 1) = powRunLoop sha b (s + 1) fuel := by
        simp only [powRunLoop]
        rw [if_neg hc]
      rw [this] at hrun
      obtain ⟨h1, h2, h3, h4⟩ := ih (s + 1) n h hrun
      refine ⟨by omega, h2, h3, ?_⟩
      intro m hm1 hm2
      rcases Nat.eq_or_lt_of_le hm1 with hms | hms
      · rw [← hms]
        exact decide_eq_false hc
      · exact h4 m hms hm2

/-- Completeness of the `Run` search loop: sufficient fuel reaches any
valid nonce. -/
theorem powRunLoop_complete (sha : Bytes → Bytes) (b : Block) :
    ∀ (fuel s n : Nat), s ≤ n → n < s + fuel → powCondB sha b n = true →
      (powRunLoop sha b s fuel).isSome = true := by
  intro fuel
  induction fuel with
  | zero => intro s n h1 h2 _; omega
  | succ fuel ih =>
    intro s n h1 h2 hc
    by_cases hcs : bytesToNat (sha (prepareData sha b (Int.ofNat s))) < powTarget
    · simp only [powRunLoop]
      rw [if_pos hcs]
      rfl
    · simp only [powRunLoop]
      rw [if_neg hcs]
      have hsn : s ≠ n := by
        intro he
        exact hcs (of_decide_eq_true (he ▸ hc))
      exact ih (s + 1) n (by omega) (by omega) hc

/-- Shape of a successful `AddBlock`: the mined block is appended and
carries exactly the given transactions. -/
theorem addBlock_shape (sha : Bytes → Bytes) (fuel : Nat) (ts : Int) (bc : Blockchain)
    (txs : List Transaction) (bc' : Blockchain) (b : Block)
    (h : bc.AddBlock sha fuel ts txs = some (bc', b)) :
    bc'.blocks = bc.blocks ++ [b] ∧ b.transactions = txs ∧
      ∃ n hsh, powRunLoop sha { timestamp := ts, transactions := txs, prevHash := lastBlockHash bc, hash := [], nonce := 0 } 0 fuel = some (n, hsh) ∧ b.nonce = Int.ofNat n ∧ b.hash = hsh := by
  cases hr : powRunLoop sha { timestamp := ts, transactions := txs, prevHash := lastBlockHash bc, hash := [], nonce := 0 } 0 fuel with
  | none => simp [Blockchain.AddBlock, NewBlock, hr] at h
  | some nh =>
    simp only [Blockchain.AddBlock, NewBlock, hr, Option.some.injEq, Prod.mk.injEq] at h
    obtain ⟨h1, h2⟩ := h
    refine ⟨?_, ?_, nh.1, nh.2, ?_, ?_, ?_⟩
    · rw [← h1, ← h2]
    · rw [← h2]
    · rfl
    · rw [← h2]
    · rw [← h2]

/-- The per-op chain projection: neither `Reindex` nor `Update` touches
the chain itself. -/
theorem applyOps_bc (ops : List IndexOp) : ∀ st : IndexedState, (applyOps st ops).bc = st.bc := by
  induction ops with
  | nil => intro st; rfl
  | cons op rest ih =>
    intro st
    have hop : (applyOp st op).bc = st.bc := by cases op <;> rfl
    calc (applyOps st (op :: rest)).bc = (applyOps (applyOp st op) rest).bc := rfl
      _ = (applyOp st op).bc := ih _
      _ = st.bc := hop

/-! ## Claim theorems -/

/-- Claim C1 (code bug): the claim says `FindUTXO` with a nil filter
maps each transaction id to exactly those outputs not referenced by any
input of any non-coinbase transaction anywhere in the chain.  On
`chain2`, the non-coinbase transaction `txB` spends output 0 of `txA`
(so per the spec — `SpecSpent` — it is spent), yet `FindUTXO` still
returns it: the forward scan records spends only after the spent
outputs have already been collected. -/
theorem findUTXO_returns_spent_output :
    txB.IsCoinbase = false
    ∧ (txB.vin.map fun v => (v.txid, v.vout)) = [([1], 0)]
    ∧ SpecSpent chain2 [1] 0 = true
    ∧ alistLookup (chain2.FindUTXO none) [1] = some [{ value := 10, pubKeyHash := [7] }] := by
  decide

/-- Claim C2 (code bug): after the block spending `(txA, 0)` has been
appended and the UTXO index updated (by `Update` — which does drop the
entry from the cache map — or by `Reindex`), `FindSpendableOutputs`
still returns `(txA, 0)` for its owner, because it rescans the chain
with the buggy `FindUTXO` and never reads the cache map. -/
theorem findSpendable_double_spend :
    SpecSpent chain2 [1] 0 = true
    ∧ alistLookup (UTXOSet.Update blkB (UTXOSet.Reindex ⟨[blkA]⟩)) [1] = none
    ∧ UTXOSet.FindSpendableOutputs
        (applyOps ⟨chain2, UTXOSet.Reindex ⟨[blkA]⟩⟩ [IndexOp.updateOp blkB]).bc [7] 1 =
        (10, [([1], [0])])
    ∧ UTXOSet.FindSpendableOutputs
        (applyOps ⟨chain2, []⟩ [IndexOp.reindexOp]).bc [7] 1 =
        (10, [([1], [0])]) := by
  decide

/-- Claim C3 (amended): if `Sign` returns without error, then `Verify`
against the same previous transactions returns true, provided that the
ECDSA primitive accepts each signature it produced on the signed
per-input hash, and that the minimal big-endian encodings satisfy the
midpoint-split side conditions: for each drawn `(r, s)`,
`len(s.Bytes())` is `len(r.Bytes())` or `len(r.Bytes()) + 1`, and
likewise for the public key coordinates `(X, Y)`, with the stored key
non-empty. -/
theorem sign_then_verify_ok (ver : Nat × Nat → Bytes → Nat × Nat → Bool)
    (txHash : Transaction → Bytes) (sigAt : Nat → Bytes → Nat × Nat) (pubXY : Nat × Nat)
    (tx tx' : Transaction) (prevTXs : List (Bytes × Transaction))
    (hs : tx.Sign txHash sigAt pubXY prevTXs = .signed tx')
    (hv : ∀ (k : Nat) (vin : TxInput) (prevTx : Transaction) (out : TxOutput),
        tx.vin[k]? = some vin → alistLookup prevTXs vin.txid = some prevTx →
        outAt prevTx vin.vout = some out →
        ver pubXY (txHash (SigningHashInput tx.TrimmedCopy k out.pubKeyHash))
          (sigAt k (txHash (SigningHashInput tx.TrimmedCopy k out.pubKeyHash))) = true)
    (hl : ∀ (k : Nat) (msg : Bytes), lenOkB (sigAt k msg) = true)
    (hk0 : natToBytes pubXY.1 ++ natToBytes pubXY.2 ≠ [])
    (hklen : lenOkB pubXY = true) :
    tx'.Verify ver txHash prevTXs = some true := by
  by_cases hcb : tx.IsCoinbase
  · have heq : tx' = tx := by
      simp [Transaction.Sign, hcb] at hs
      exact hs.symm
    rw [heq]
    simp [Transaction.Verify, hcb]
  · cases hsv : signVins txHash sigAt pubXY prevTXs tx.TrimmedCopy 0 tx.vin with
    | crash => simp [Transaction.Sign, hcb, hsv] at hs
    | missingPrev => simp [Transaction.Sign, hcb, hsv] at hs
    | done l =>
      have htx' : tx' = { tx with vin := l } := by
        simp [Transaction.Sign, hcb, hsv] at hs
        exact hs.symm
      have hblank := signVins_map_blank txHash sigAt pubXY prevTXs tx.TrimmedCopy
        tx.vin 0 l hsv
      have hcbF : tx.IsCoinbase = false := by
        simpa using hcb
      have hcb' : Transaction.IsCoinbase tx' = false := by
        rw [htx']
        have hsame := isCoinbase_map_blank l tx.vin hblank
          tx.id tx.id tx.vout tx.vout
        calc Transaction.IsCoinbase { tx with vin := l }
            = Transaction.IsCoinbase ⟨tx.id, tx.vin, tx.vout⟩ := hsame
          _ = tx.IsCoinbase := rfl
          _ = false := hcbF
      have htrim : Transaction.TrimmedCopy tx' = Transaction.TrimmedCopy tx := by
        rw [htx']
        simp only [Transaction.TrimmedCopy]
        rw [hblank]
      have hvin' : tx'.vin = l := by rw [htx']
      simp only [Transaction.Verify, hcb', Bool.false_eq_true, if_false]
      rw [htrim, hvin']
      apply signVins_verifyVins ver txHash sigAt pubXY prevTXs tx.TrimmedCopy hk0 hklen
        tx.vin 0 l hsv
      · intro k vin prevTx out h1 h2 h3
        simpa using hv k vin prevTx out h1 h2 h3
      · exact hl

/-- Claim C3 counterexample: the claim as stated is false.  With a
conforming ECDSA primitive (`verC3` accepts exactly the pair `sigAtC3`
produced, on the signed hash), signing draws `(r, s) = (256, 1)` whose
minimal encodings have lengths 2 and 1; the stored signature
`[1, 0, 1]` is re-split at the midpoint into `(1, 1)`, and `Verify`
returns false although `Sign` returned without error. -/
theorem sign_verify_split_cex :
    Transaction.Sign txHashC3 sigAtC3 (1, 2) txC3 prevsC3 = .signed txC3signed
    ∧ verC3 (1, 2) (txHashC3 (SigningHashInput txC3.TrimmedCopy 0 [7])) (sigAtC3 0 []) = true
    ∧ Transaction.Verify verC3 txHashC3 txC3signed prevsC3 = some false := by
  decide

theorem sign_then_verify_ok_witness :
    Transaction.Verify verOk txHashC3 txC3ok prevsC3 = some true :=
  sign_then_verify_ok verOk txHashC3 sigAtOk (1, 2) txC3 txC3ok prevsC3 (by decide)
    (fun _ _ _ _ _ _ _ => by simp [verOk, sigAtOk])
    (fun _ _ => by simp [lenOkB, sigAtOk, natToBytes, natToBytesAux]) (by decide) (by decide)

/-- Claim C4: the `Run` search starts at nonce 0, increments by 1, and
(whenever it returns) returns the least nonce whose hash, read as a
big-endian unsigned integer, is strictly below the target, together
with that hash; it does return once any valid nonce is within the
fuel; and every block produced by `NewBlock` validates. -/
theorem pow_run_finds_least (sha : Bytes → Bytes) :
    (∀ (b : Block) (fuel n : Nat) (hsh : Bytes), powRunLoop sha b 0 fuel = some (n, hsh) →
        powCondB sha b n = true ∧ (∀ m, m < n → powCondB sha b m = false) ∧
          hsh = sha (prepareData sha b (Int.ofNat n)))
    ∧ (∀ (b : Block) (n fuel : Nat), powCondB sha b n = true → n < fuel →
        (powRunLoop sha b 0 fuel).isSome = true)
    ∧ (∀ (fuel : Nat) (ts : Int) (txs : List Transaction) (prevHash : Bytes) (blk : Block),
        NewBlock sha fuel ts txs prevHash = some blk → PowValidate sha blk = true) := by
  refine ⟨?_, ?_, ?_⟩
  · intro b fuel n hsh hrun
    obtain ⟨_, h2, h3, h4⟩ := powRunLoop_sound sha b fuel 0 n hsh hrun
    exact ⟨h2, fun m hm => h4 m (Nat.zero_le m) hm, h3⟩
  · intro b n fuel hc hf
    exact powRunLoop_complete sha b fuel 0 n (Nat.zero_le n) (by omega) hc
  · intro fuel ts txs prevHash blk hnb
    cases hr : powRunLoop sha { timestamp := ts, transactions := txs, prevHash := prevHash, hash := [], nonce := 0 } 0 fuel with
    | none => simp [NewBlock, hr] at hnb
    | some nh =>
      simp only [NewBlock, hr, Option.some.injEq] at hnb
      obtain ⟨_, h2, _, _⟩ := powRunLoop_sound sha _ fuel 0 nh.1 nh.2 hr
      rw [← hnb]
      exact h2

theorem pow_run_finds_least_witness :
    powCondB shaZ blkW 0 = true ∧ PowValidate shaZ blkMined = true :=
  ⟨((pow_run_finds_least shaZ).1 blkW 1 0 (List.replicate 32 0) (by decide)).1,
   (pow_run_finds_least shaZ).2.2 1 0 [] [] blkMined (by decide)⟩

/-- Claim C5: `NewCoinbaseTx` returns a transaction with exactly one
input (empty `Txid`, `Vout = -1`) and exactly one output of the fixed
reward 15000 paid to the hex-decoded address; `IsCoinbase` holds
exactly for transactions with one such input; and `Verify` accepts
every coinbase transaction for any previous-transaction map. -/
theorem newCoinbaseTx_props (setId : Transaction → Bytes) (toA data h : Bytes)
    (hh : hexDecode toA = some h) :
    (∃ d, (NewCoinbaseTx setId toA data).vin =
        [{ txid := [], vout := -1, signature := [], pubKey := d }])
    ∧ (NewCoinbaseTx setId toA data).vout = [{ value := 15000, pubKeyHash := h }]
    ∧ (∀ tx : Transaction, tx.IsCoinbase = true ↔
        ∃ v, tx.vin = [v] ∧ v.txid = [] ∧ v.vout = -1)
    ∧ (∀ (ver : Nat × Nat → Bytes → Nat × Nat → Bool) (txHash : Transaction → Bytes)
        (tx : Transaction) (prevTXs : List (Bytes × Transaction)),
        tx.IsCoinbase = true → tx.Verify ver txHash prevTXs = some true) := by
  refine ⟨⟨_, rfl⟩, ?_, ?_, ?_⟩
  · show [({ value := 15000, pubKeyHash := coinbasePubKeyHash toA } : TxOutput)] = _
    unfold coinbasePubKeyHash
    by_cases ht : toA = []
    · rw [if_pos ht]
      rw [ht] at hh
      have : h = [] := by
        simpa [hexDecode, hexDecodeGo] using hh.symm
      rw [this]
    · rw [if_neg ht, hh]
  · intro tx
    unfold Transaction.IsCoinbase
    rcases tx with ⟨tid, tvin, tvout⟩
    rcases tvin with _ | ⟨a, _ | ⟨b, tl⟩⟩
    · simp
    · simp [List.isEmpty_iff]
    · simp
  · intro ver txHash tx prevTXs hcb
    simp [Transaction.Verify, hcb]

theorem newCoinbaseTx_props_witness :
    (NewCoinbaseTx (fun _ => []) [48, 55] [1]).vout =
      [{ value := 15000, pubKeyHash := [7] }] :=
  (newCoinbaseTx_props (fun _ => []) [48, 55] [1] [7] (by decide)).2.1

/-- Claim C6: when `FindSpendableOutputs` accumulates strictly less
than the requested amount, `SendTransaction` fails with the
insufficient-funds error and leaves the server state — in particular
the chain — unchanged (given that the earlier request-validation
guards pass). -/
theorem sendTransaction_insufficient_funds (env : CryptoEnv) (fuel : Nat) (ts : Int)
    (st : ServerState) (req : TxRequest)
    (hfrom : ValidateAddress req.fromAddr = true)
    (hto : ValidateAddress req.toAddr = true)
    (hamt : 0 < req.amount)
    (hpk : (hexDecode req.privKey).isSome = true)
    (hins : (UTXOSet.FindSpendableOutputs st.bc (hexDecodeGo req.fromAddr).1 req.amount).1 <
      req.amount) :
    SendTransaction env fuel ts st req = some (st, .httpErr 400 "insufficient funds") := by
  obtain ⟨dB, hdB⟩ := Option.isSome_iff_exists.mp hpk
  simp only [SendTransaction, hfrom, hto, hdB, Bool.and_self, Bool.not_true,
    Bool.false_eq_true, if_false]
  rw [if_neg (by omega), if_pos hins]

theorem sendTransaction_insufficient_funds_witness :
    SendTransaction envW 1 0 stW reqW = some (stW, .httpErr 400 "insufficient funds") :=
  sendTransaction_insufficient_funds envW 1 0 stW reqW (by decide) (by decide)
    (by decide) (by decide) (by decide)

/-- Claim C7 (amended): for a non-coinbase transaction whose referenced
transactions are present with in-range indices, `Verify` is total — it
returns a boolean and never hits the index panic — and an input with an
empty public key, or (for an ECDSA primitive rejecting `r = 0`) an
empty signature, makes it return false.  A signature of malformed
(odd or unequal-halves) length is, however, not forced to verify
false: the re-split pair is handed to the ECDSA primitive, which may
accept it (see the counterexample). -/
theorem verify_total_malformed (ver : Nat × Nat → Bytes → Nat × Nat → Bool)
    (txHash : Transaction → Bytes) (tx : Transaction)
    (prevTXs : List (Bytes × Transaction))
    (hnc : tx.IsCoinbase = false)
    (hwf : PrevOk prevTXs tx = true)
    (hzero : ∀ p m s2, ver p m (0, s2) = false) :
    (∃ b, tx.Verify ver txHash prevTXs = some b)
    ∧ ((tx.vin.any fun v => v.pubKey.isEmpty || v.signature.isEmpty) = true →
        tx.Verify ver txHash prevTXs = some false) := by
  unfold PrevOk at hwf
  constructor
  · simp only [Transaction.Verify, hnc, Bool.false_eq_true, if_false]
    exact verifyVins_total ver txHash prevTXs tx.TrimmedCopy tx.vin 0 hwf
  · intro hany
    simp only [Transaction.Verify, hnc, Bool.false_eq_true, if_false]
    exact verifyVins_false ver txHash prevTXs tx.TrimmedCopy hzero tx.vin 0 hwf hany

/-- Claim C7 counterexample: an odd-length (3-byte) signature is not
"splittable into two equal halves", yet `Verify` returns true on it
with a conforming ECDSA primitive: the midpoint split of `[5, 1, 0]`
recovers `(5, 256)` — exactly the situation of a genuine signature
whose `r` encoding is one byte shorter than its `s` encoding. -/
theorem verify_odd_sig_cex :
    (txC7odd.vin.all fun v => v.signature.length % 2 == 1) = true
    ∧ Transaction.Verify verC7 txHashC3 txC7odd prevsC3 = some true := by
  decide

theorem verify_total_malformed_witness :
    Transaction.Verify (fun _ _ _ => false) txHashC3 txC7 prevsC3 = some false :=
  (verify_total_malformed (fun _ _ _ => false) txHashC3 txC7 prevsC3 (by decide)
      (by decide) (fun _ _ _ => rfl)).2 (by decide)

/-- Claim C8: `FindSpendableOutputs` and the balance computation are
pure functions of the chain alone — they rescan via
`Blockchain.FindUTXO` and never read the cache map that `Reindex`
returns or `Update` mutates — so interposing any sequence of `Reindex`
or `Update` calls leaves their results unchanged. -/
theorem utxo_reads_ignore_cache (ops : List IndexOp) (st : IndexedState)
    (pkh : Bytes) (amt : Int) (addr : Bytes) :
    (applyOps st ops).bc = st.bc
    ∧ UTXOSet.FindSpendableOutputs (applyOps st ops).bc pkh amt =
        UTXOSet.FindSpendableOutputs st.bc pkh amt
    ∧ balanceForAddress (applyOps st ops).bc addr = balanceForAddress st.bc addr := by
  refine ⟨applyOps_bc ops st, ?_, ?_⟩ <;> rw [applyOps_bc ops st]

/-- Claim C9: a successful `FundWallet` request appends one block whose
single coinbase transaction pays exactly the hard-coded 15000 to the
requested address, regardless of the request's `amount`; the HTTP
response, and the persisted transaction row when the store is
configured, report the requested amount instead. -/
theorem fundWallet_fixed_reward (env : CryptoEnv) (fuel : Nat) (ts : Int)
    (st st' : ServerState) (req : FundWalletRequest) (resp : FundWalletResponse)
    (h : FundWallet env fuel ts st req = some (st', .ok resp)) :
    ∃ b, st'.bc.blocks = st.bc.blocks ++ [b]
      ∧ b.transactions = [NewCoinbaseTx env.setId req.address adminFaucetData]
      ∧ (NewCoinbaseTx env.setId req.address adminFaucetData).vout =
          [{ value := 15000, pubKeyHash := coinbasePubKeyHash req.address }]
      ∧ resp.address = req.address ∧ resp.amount = req.amount
      ∧ resp.blockHash = hexEncode b.hash
      ∧ (st.dbEnabled = true →
          st'.savedTxs = st.savedTxs ++
            [{ blockHash := hexEncode b.hash
               tx := NewCoinbaseTx env.setId req.address adminFaucetData
               fromAddr := systemBytes, toAddr := req.address
               amount := req.amount, kind := "reward" }]) := by
  simp only [FundWallet] at h
  split at h
  · simp at h
  · split at h
    · simp at h
    · cases hab : Blockchain.AddBlock env.sha fuel ts st.bc
          [NewCoinbaseTx env.setId req.address adminFaucetData] with
      | none => simp [hab] at h
      | some bcb =>
        obtain ⟨bc', b⟩ := bcb
        obtain ⟨hb1, hb2, -⟩ := addBlock_shape env.sha fuel ts st.bc _ bc' b hab
        simp only [hab, Option.some.injEq, Prod.mk.injEq, HttpOut.ok.injEq] at h
        obtain ⟨hst, hresp⟩ := h
        refine ⟨b, ?_, hb2, rfl, ?_, ?_, ?_, ?_⟩
        · rw [← hst]
          by_cases hdb : st.dbEnabled <;> simp [hdb, hb1, hb2]
        · rw [← hresp]
        · rw [← hresp]
        · rw [← hresp]
        · intro hdb
          rw [← hst]
          simp [hdb, hb2]

theorem fundWallet_fixed_reward_witness :
    ∃ b, stF.bc.blocks = stW.bc.blocks ++ [b]
      ∧ b.transactions = [NewCoinbaseTx envW.setId reqF.address adminFaucetData]
      ∧ (NewCoinbaseTx envW.setId reqF.address adminFaucetData).vout =
          [{ value := 15000, pubKeyHash := coinbasePubKeyHash reqF.address }]
      ∧ respF.address = reqF.address ∧ respF.amount = reqF.amount
      ∧ respF.blockHash = hexEncode b.hash
      ∧ (stW.dbEnabled = true →
          stF.savedTxs = stW.savedTxs ++
            [{ blockHash := hexEncode b.hash
               tx := NewCoinbaseTx envW.setId reqF.address adminFaucetData
               fromAddr := systemBytes, toAddr := reqF.address
               amount := reqF.amount, kind := "reward" }]) :=
  fundWallet_fixed_reward envW 1 0 stW stF reqF respF (by decide)

/-- Claim C10 counterexample: the single-byte string "z" is accepted by
`ValidateAddress` although it is not a structurally well-formed address
in the spec's sense (correct length/encoding of a hex-encoded
public-key hash). -/
theorem validateAddress_not_wellformed_cex :
    ValidateAddress [122] = true ∧ SpecAddressWellFormed [122] = false := by
  decide

/-- Claim C10 (amended): `ValidateAddress` returns true iff the address
string is non-empty; it performs no length, hex-encoding, checksum, or
key-correspondence check. -/
theorem validateAddress_eq_nonempty (a : Bytes) : ValidateAddress a = !a.isEmpty := by
  cases a with
  | nil => rfl
  | cons x xs => simp [ValidateAddress]

end ZakatWallet
